import Mathlib

set_option maxHeartbeats 1000000

/-!
Shallow embedding of the advanced-vector container of vector.h.

The raw arena owned by RawMemory, together with the live count of Vector, is
modelled as a list of slots plus a size field.  A slot holds none when it is
raw uninitialized storage and holds some x when a value of the element type has
been constructed in it.  The length of the slot list is the arena capacity.
Element reads and writes of the source are translated to slot reads and writes
at the same indices, and each standard library call is translated to its
documented element-by-element effect.
-/

/-- State of a Vector: the arena data_ slot by slot, plus size_. -/
structure Vec (α : Type) where
  slots : List (Option α)
  size : Nat
  deriving Repr, DecidableEq

/-- data_.Capacity(): the arena capacity is the number of slots. -/
def Vec.Capacity (v : Vec α) : Nat := v.slots.length

/-- The live elements, read from the slots 0 up to size. -/
def Vec.live (v : Vec α) : List α := (v.slots.take v.size).filterMap id

/-- DestroyN(buf + i, n): destroy the slots i, i+1, ..., i+n-1 in order. -/
def destroyN (s : List (Option α)) (i : Nat) : Nat → List (Option α)
  | 0 => s
  | n + 1 => destroyN (s.set i none) (i + 1) n

/-- The value effect of an uninitialized copy or move of the given slot values
    into destination slots starting at position off, one slot after another. -/
def uninitSeq (src : List (Option α)) (dst : List (Option α)) (off : Nat) :
    List (Option α) :=
  match src with
  | [] => dst
  | x :: xs => uninitSeq xs (dst.set off x) (off + 1)

/-- The loop for i below n do data_[i] = rhs[i] of the copy assignment:
    slot i of s is overwritten by the value read from slot i of rhsSlots. -/
def assignUpTo (s rhsSlots : List (Option α)) (i : Nat) : Nat → List (Option α)
  | 0 => s
  | n + 1 => assignUpTo (s.set i (rhsSlots.getD i none)) rhsSlots (i + 1) n

/-- Vector(const Vector other): allocate exactly other.size slots and
    copy-construct the live elements of other into them in order. -/
def Vec.copyCtor (other : Vec α) : Vec α :=
  ⟨uninitSeq (other.slots.take other.size) (List.replicate other.size none) 0,
   other.size⟩

/-- operator= of Vector for a const reference, for distinct objects.
    Branch one: rhs.size above capacity, copy and swap.
    Branch two: rhs.size below size, assign the prefix then destroy the tail.
    Branch three: assign the slots 0 up to size, then the call
    uninitialized_copy_n(rhs.data_ + size_, rhs.size_ - size_, data_.GetAddress())
    copy-constructs the tail of rhs at the START of the buffer, offset 0,
    exactly as the source writes it; finally size_ = rhs.size_. -/
def Vec.copyAssign (v rhs : Vec α) : Vec α :=
  if rhs.size > v.Capacity then
    Vec.copyCtor rhs
  else if rhs.size < v.size then
    ⟨destroyN (assignUpTo v.slots rhs.slots 0 rhs.size) rhs.size (v.size - rhs.size),
     rhs.size⟩
  else
    ⟨uninitSeq ((rhs.slots.drop v.size).take (rhs.size - v.size))
      (assignUpTo v.slots rhs.slots 0 v.size) 0,
     rhs.size⟩

/-- RawMemory(capacity): Allocate(n) obtains n raw slots when n is not zero and
    the null buffer otherwise.  The second component records the sizes of the
    blocks allocated by the call, so that allocations are observable. -/
def rawCreate (α : Type) (n : Nat) : List (Option α) × List Nat :=
  (List.replicate n none, if n = 0 then [] else [n])

/-- RawMemory move assignment: Deallocate the current buffer, steal the buffer
    and capacity of rhs, leave rhs with the null buffer and capacity 0. -/
def rawMoveAssign (_dst rhs : List (Option α)) : List (Option α) × List (Option α) :=
  (rhs, [])

/-- Vector(Vector and-and other): the member initializer data_(other.size_)
    allocates a fresh arena of other.size_ slots, then the body replaces it via
    data_ = std move of other.data_, which deallocates the fresh arena and
    steals the arena of other; size_ = exchange(other.size_, 0).
    Result: the new vector, the moved-from other, and the list of the sizes of
    the arenas allocated while the constructor ran. -/
def Vec.moveCtor (other : Vec α) : Vec α × Vec α × List Nat :=
  let a := rawCreate α other.size
  let p := rawMoveAssign a.1 other.slots
  (⟨p.1, other.size⟩, ⟨p.2, 0⟩, a.2)

/-- operator= of Vector for an rvalue reference, for distinct objects:
    data_ = std move of rhs.data_; size_ = exchange(rhs.size_, 0). -/
def Vec.moveAssign (v rhs : Vec α) : Vec α × Vec α :=
  let p := rawMoveAssign v.slots rhs.slots
  (⟨p.1, rhs.size⟩, ⟨p.2, 0⟩)

/-- View of one Vector used to trace the move assignment onto itself: the held
    buffer pointer (none plays nullptr), whether the held pointer refers to a
    block that was already deallocated, the stored capacity and the stored size. -/
structure SelfMoveView (α : Type) where
  ptr : Option (List (Option α))
  dangling : Bool
  cap : Nat
  size : Nat
  deriving Repr, DecidableEq

/-- operator= of Vector for an rvalue reference when rhs is the object itself.
    Inside the RawMemory move assignment, Deallocate(buffer_) frees the held
    block; exchange(rhs.buffer_, nullptr) then reads the old pointer value,
    stores nullptr, and the old value is written back into buffer_, so the
    object keeps a pointer to the freed block; the two further exchanges leave
    capacity_ and size_ at their old values for the same aliasing reason. -/
def Vec.moveAssignSelf (v : SelfMoveView α) : SelfMoveView α :=
  let freedSomething := v.ptr.isSome
  let ptrAfter := v.ptr
  let capAfter := v.cap
  let sizeAfter := v.size
  ⟨ptrAfter, freedSomething, capAfter, sizeAfter⟩

/-- PopBack(): when size_ is not 0, Destroy(data_ + (size_ - 1)) and decrement
    size_; otherwise nothing happens. -/
def Vec.popBack (v : Vec α) : Vec α :=
  if v.size ≠ 0 then ⟨v.slots.set (v.size - 1) none, v.size - 1⟩ else v

/-- Model of std move_backward(first, last, d_last) on the slot list: the range
    first up to last is moved so that it ends at d_last.  The call requires
    first at most last with the ranges in bounds; otherwise the behavior is
    undefined, modelled as none. -/
def moveBackward (s : List (Option α)) (first last dlast : Nat) :
    Option (List (Option α)) :=
  if first ≤ last ∧ last ≤ dlast ∧ dlast ≤ s.length then
    some (s.take (first + (dlast - last)) ++ (s.drop first).take (last - first)
      ++ s.drop dlast)
  else none

/-- Emplace(pos, args): delta is pos minus begin.
    Reallocating branch, size_ equal to Capacity(): a new arena of one slot when
    size_ is 0 and of size_ * 2 slots otherwise; the new element is constructed
    directly at slot delta of the new arena; TryInitMove or TryInitCopy then
    migrates the old slots 0 up to delta to positions 0 up to delta and the old
    slots delta up to size_ to positions delta + 1 up to size_ + 1 (reading
    delta elements from an arena holding only size_ live ones is undefined,
    modelled as none); the old elements are destroyed and the new arena adopted.
    Spare capacity, size_ equal 0: the element is constructed at begin().
    Spare capacity otherwise: a temporary holds the new value, a move of the
    last element is constructed at end(), move_backward shifts the range delta
    up to size_ - 1 one slot to the right, and the temporary is move-assigned
    into slot delta.  Every branch increments size_ and returns begin() + delta. -/
def Vec.Emplace (v : Vec α) (delta : Nat) (x : α) : Option (Vec α × Nat) :=
  if v.size = v.Capacity then
    if delta ≤ v.size then
      some (⟨uninitSeq ((v.slots.take v.size).drop delta)
              (uninitSeq ((v.slots.take v.size).take delta)
                ((List.replicate (if v.size = 0 then 1 else v.size * 2) none).set
                  delta (some x)) 0)
              (delta + 1),
             v.size + 1⟩, delta)
    else none
  else if v.size = 0 then
    some (⟨v.slots.set 0 (some x), 1⟩, delta)
  else
    match moveBackward (v.slots.set v.size (v.slots.getD (v.size - 1) none))
        delta (v.size - 1) v.size with
    | none => none
    | some s2 => some (⟨s2.set delta (some x), v.size + 1⟩, delta)

/-- The vector produced by Emplace, with the original vector as the value of
    the undefined-behavior case so that total operation sequences can be built. -/
def Vec.emplaceVec (v : Vec α) (delta : Nat) (x : α) : Vec α :=
  match Vec.Emplace v delta x with
  | some p => p.1
  | none => v

/-- Insert(pos, value) forwards to Emplace(pos, value). -/
def Vec.Insert (v : Vec α) (delta : Nat) (x : α) : Option (Vec α × Nat) :=
  Vec.Emplace v delta x

/-- PushBack(value): at full capacity it calls Emplace(begin() + size_, value),
    which always takes the reallocating branch; otherwise the element is
    constructed at slot size_ and size_ is incremented. -/
def Vec.PushBack (v : Vec α) (x : α) : Vec α :=
  if v.size = v.Capacity then Vec.emplaceVec v v.size x
  else ⟨v.slots.set v.size (some x), v.size + 1⟩

/-- EmplaceBack(args): at full capacity it returns the dereferenced result of
    Emplace(begin() + size_, args); otherwise the element is constructed at
    slot size_, size_ is incremented, and data_[size_ - 1] is returned.  The
    returned position is given as an index into the arena. -/
def Vec.EmplaceBack (v : Vec α) (x : α) : Option (Vec α × Nat) :=
  if v.size = v.Capacity then Vec.Emplace v v.size x
  else some (⟨v.slots.set v.size (some x), v.size + 1⟩, v.size)

/-- The vector produced by EmplaceBack, forgetting the returned position. -/
def Vec.emplaceBackVec (v : Vec α) (x : α) : Vec α :=
  match Vec.EmplaceBack v x with
  | some p => p.1
  | none => v

/-- The loop of Erase: for i from start while i below size do
    data_[i - 1] = move of data_[i].  The fuel argument counts the remaining
    iterations, size minus the current i. -/
def eraseShiftGo (s : List (Option α)) (i : Nat) : Nat → List (Option α)
  | 0 => s
  | m + 1 => eraseShiftGo (s.set (i - 1) (s.getD i none)) (i + 1) m

/-- Erase(pos): shift the elements after delta one slot to the left by move
    assignment, Destroy(end() - 1), decrement size_, return begin() + delta. -/
def Vec.Erase (v : Vec α) (delta : Nat) : Vec α × Nat :=
  (⟨(eraseShiftGo v.slots (delta + 1) (v.size - (delta + 1))).set (v.size - 1) none,
    v.size - 1⟩, delta)

/-- Reserve(new_capacity): nothing below or at the current capacity; otherwise
    a new arena is allocated, the live elements are migrated into it one by one
    by uninitialized move or copy, the old elements are destroyed and the new
    arena is adopted by the swap. -/
def Vec.Reserve (v : Vec α) (n : Nat) : Vec α :=
  if n ≤ v.Capacity then v
  else ⟨uninitSeq (v.slots.take v.size) (List.replicate n none) 0, v.size⟩

/-- The loop of uninitialized_value_construct_n: slots i up to i + n receive a
    value-constructed element. -/
def valueConstructN [Inhabited α] (s : List (Option α)) (i : Nat) :
    Nat → List (Option α)
  | 0 => s
  | n + 1 => valueConstructN (s.set i (some default)) (i + 1) n

/-- Resize(new_size): shrink destroys the tail; grow reserves and then
    value-constructs the new tail; size_ becomes new_size either way. -/
def Vec.Resize [Inhabited α] (v : Vec α) (n : Nat) : Vec α :=
  if n < v.size then ⟨destroyN v.slots n (v.size - n), n⟩
  else if v.size < n then
    ⟨valueConstructN (Vec.Reserve v n).slots v.size (n - v.size), n⟩
  else ⟨v.slots, n⟩

/-- The mutating operations applied to a vector in a sequence, each carrying
    its arguments; moveAssignFrom is the move assignment with the container as
    the destination. -/
inductive Op (α : Type) where
  | copyAssignFrom (rhs : Vec α)
  | moveAssignFrom (rhs : Vec α)
  | reserveOp (n : Nat)
  | resizeOp (n : Nat)
  | pushBackOp (x : α)
  | popBackOp
  | emplaceOp (i : Nat) (x : α)
  | insertOp (i : Nat) (x : α)
  | emplaceBackOp (x : α)
  | eraseOp (i : Nat)

/-- Whether the operation is a move assignment into the container. -/
def Op.isMoveAssignFrom : Op α → Bool
  | .moveAssignFrom _ => true
  | _ => false

/-- Run one operation on the container state. -/
def Vec.applyOp [Inhabited α] (v : Vec α) : Op α → Vec α
  | .copyAssignFrom rhs => Vec.copyAssign v rhs
  | .moveAssignFrom rhs => (Vec.moveAssign v rhs).1
  | .reserveOp n => Vec.Reserve v n
  | .resizeOp n => Vec.Resize v n
  | .pushBackOp x => Vec.PushBack v x
  | .popBackOp => Vec.popBack v
  | .emplaceOp i x => Vec.emplaceVec v i x
  | .insertOp i x => Vec.emplaceVec v i x
  | .emplaceBackOp x => Vec.emplaceBackVec v x
  | .eraseOp i => (Vec.Erase v i).1

/-- Repeated PushBack starting from the default-constructed vector, pushing
    the value f n at step n.  The second component collects the capacity
    observed after each push that changed the capacity, in order: the list of
    capacities at the growth events. -/
def pushSim (f : Nat → Nat) : Nat → Vec Nat × List Nat
  | 0 => (⟨[], 0⟩, [])
  | n + 1 =>
    (Vec.PushBack (pushSim f n).1 (f n),
     if (Vec.PushBack (pushSim f n).1 (f n)).Capacity = (pushSim f n).1.Capacity
     then (pushSim f n).2
     else (pushSim f n).2 ++ [(Vec.PushBack (pushSim f n).1 (f n)).Capacity])

/-- Whether every slot of an arena is uninitialized. -/
def allNone (s : List (Option α)) : Bool := s.all fun o => o.isNone

/-- Instrumentation for an element type whose copy constructor fails on a
    chosen invocation: made counts the copies performed so far, and the copy
    numbered failAt throws. -/
structure CopyCtr where
  made : Nat
  failAt : Nat
  deriving Repr, DecidableEq

/-- One copy construction: it throws exactly when it is copy number failAt. -/
def copyOne (c : CopyCtr) : Option CopyCtr :=
  if c.made + 1 = c.failAt then none else some ⟨c.made + 1, c.failAt⟩

/-- The element loop of uninitialized_copy_n with a failing copy constructor:
    the values src are copy-constructed into the slots off, off + 1, and so on.
    On success the filled arena is returned on the left; when a copy throws,
    the right side reports how many elements this call had constructed,
    together with the arena as it is at that moment. -/
def ucnGo (src : List α) (dst : List (Option α)) (off : Nat) (c : CopyCtr) :
    (List (Option α) ⊕ Nat × List (Option α)) × CopyCtr :=
  match src with
  | [] => (.inl dst, c)
  | x :: xs =>
    match copyOne c with
    | none => (.inr (0, dst), c)
    | some c1 =>
      match ucnGo xs (dst.set off (some x)) (off + 1) c1 with
      | (.inl d, c2) => (.inl d, c2)
      | (.inr (b, d), c2) => (.inr (b + 1, d), c2)

/-- uninitialized_copy_n(src, n, dst + off) with the rollback the standard
    requires: when a copy throws, the elements already constructed by this call
    are destroyed before the exception escapes.  The first component is some on
    success and none when the call threw; the second component is the arena
    after the call ended or after the exception escaped it. -/
def uninitCopyF (src : List α) (dst : List (Option α)) (off : Nat) (c : CopyCtr) :
    Option (List (Option α)) × List (Option α) × CopyCtr :=
  match ucnGo src dst off c with
  | (.inl d, c1) => (some d, d, c1)
  | (.inr (b, d), c1) => (none, destroyN d off b, c1)

/-- Reserve(new_capacity) on the copy migration path, with the failing copy
    constructor.  On an exception the partially filled new arena has been
    rolled back and is deallocated while data_ and size_ were never touched;
    the error value carries the vector as the exception escapes together with
    the content of the new arena at that moment.  On success the old elements
    are destroyed and the new arena is adopted. -/
def ReserveF (v : Vec Nat) (n : Nat) (c : CopyCtr) :
    Except (Vec Nat × List (Option Nat)) (Vec Nat) × CopyCtr :=
  if n ≤ v.Capacity then (.ok v, c)
  else
    match uninitCopyF v.live (List.replicate n none) 0 c with
    | (none, d, c1) => (.error (v, d), c1)
    | (some d, _, c1) => (.ok ⟨d, v.size⟩, c1)

/-- TryInitCopy(delta, new_data): copy the live prefix 0 up to delta to the new
    arena at offset 0; on a throw the catch destroys new_data + delta and
    rethrows.  Then copy the live suffix delta up to size to offset delta + 1;
    on a throw the catch destroys the slots 0 up to delta + 1 and rethrows. -/
def TryInitCopyF (v : Vec Nat) (delta : Nat) (nd : List (Option Nat)) (c : CopyCtr) :
    Option (List (Option Nat)) × List (Option Nat) × CopyCtr :=
  match uninitCopyF (v.live.take delta) nd 0 c with
  | (none, d, c1) => (none, destroyN d delta 1, c1)
  | (some d1, _, c1) =>
    match uninitCopyF (v.live.drop delta) d1 (delta + 1) c1 with
    | (none, d, c2) => (none, destroyN d 0 (delta + 1), c2)
    | (some d2, _, c2) => (some d2, d2, c2)

/-- The reallocating branch of Emplace on the copy migration path, with the
    failing copy constructor: the new element is constructed at slot delta of
    the new arena, then TryInitCopy migrates the old elements.  On an exception
    the error value carries the vector as the exception escapes, untouched
    since destroy_n and the arena adoption were not reached, together with the
    content of the new arena at that moment. -/
def EmplaceF (v : Vec Nat) (delta : Nat) (x : Nat) (c : CopyCtr) :
    Except (Vec Nat × List (Option Nat)) (Vec Nat × Nat) × CopyCtr :=
  match TryInitCopyF v delta
      ((List.replicate (if v.size = 0 then 1 else v.size * 2) none).set delta
        (some x)) c with
  | (none, d, c1) => (.error (v, d), c1)
  | (some d2, _, c1) => (.ok (⟨d2, v.size + 1⟩, delta), c1)

/-! Helper lemmas about the slot-level primitives. -/

theorem getD_set_ne (l : List (Option α)) (i j : Nat) (v : Option α) (h : i ≠ j) :
    (l.set i v).getD j none = l.getD j none := by
  simp [List.getD_eq_getElem?_getD, List.getElem?_set, h]

theorem getD_set_none_self (l : List (Option α)) (i : Nat) :
    (l.set i none).getD i none = none := by
  rw [List.getD_eq_getElem?_getD, List.getElem?_set, if_pos rfl]
  split <;> rfl

theorem getD_replicate_none (n j : Nat) :
    (List.replicate n (none : Option α)).getD j none = none := by
  simp only [List.getD_eq_getElem?_getD, List.getElem?_replicate]
  split <;> simp

theorem set_none_of_getD_none (l : List (Option α)) (i : Nat)
    (h : l.getD i none = none) : l.set i none = l := by
  induction l generalizing i with
  | nil => rfl
  | cons x xs ih =>
    cases i with
    | zero =>
      simp only [List.getD_eq_getElem?_getD, List.getElem?_cons_zero,
        Option.getD_some] at h
      simp [List.set, h]
    | succ m =>
      simp only [List.set]
      rw [ih m (by simpa [List.getD_eq_getElem?_getD] using h)]

theorem length_destroyN (n : Nat) (s : List (Option α)) (i : Nat) :
    (destroyN s i n).length = s.length := by
  induction n generalizing s i with
  | zero => rfl
  | succ m ih => simp [destroyN, ih]

theorem length_uninitSeq (src dst : List (Option α)) (off : Nat) :
    (uninitSeq src dst off).length = dst.length := by
  induction src generalizing dst off with
  | nil => rfl
  | cons x xs ih => simp [uninitSeq, ih]

theorem length_assignUpTo (n : Nat) (s r : List (Option α)) (i : Nat) :
    (assignUpTo s r i n).length = s.length := by
  induction n generalizing s i with
  | zero => rfl
  | succ m ih => simp [assignUpTo, ih]

theorem length_valueConstructN [Inhabited α] (n : Nat) (s : List (Option α)) (i : Nat) :
    (valueConstructN s i n).length = s.length := by
  induction n generalizing s i with
  | zero => rfl
  | succ m ih => simp [valueConstructN, ih]

theorem length_eraseShiftGo (m : Nat) (s : List (Option α)) (i : Nat) :
    (eraseShiftGo s i m).length = s.length := by
  induction m generalizing s i with
  | zero => rfl
  | succ p ih => simp [eraseShiftGo, ih]

theorem moveBackward_length (s r : List (Option α)) (f l d : Nat)
    (h : moveBackward s f l d = some r) : r.length = s.length := by
  unfold moveBackward at h
  split at h
  · rename_i hc
    obtain ⟨h1, h2, h3⟩ := hc
    simp only [Option.some.injEq] at h
    subst h
    simp [List.length_take, List.length_drop]
    omega
  · exact absurd h (by simp)

theorem destroyN_set_comm (n : Nat) (s : List (Option α)) (i p : Nat) (v : Option α)
    (h : p < i) : destroyN (s.set p v) i n = (destroyN s i n).set p v := by
  induction n generalizing s i with
  | zero => rfl
  | succ m ih =>
    simp only [destroyN]
    rw [List.set_comm _ _ _ (Nat.ne_of_lt h), ih _ _ (Nat.lt_succ_of_lt h)]

theorem destroyN_getD (n : Nat) (s : List (Option α)) (i j : Nat) :
    (destroyN s i n).getD j none =
      if i ≤ j ∧ j < i + n then none else s.getD j none := by
  induction n generalizing s i with
  | zero =>
    simp only [destroyN]
    split
    · omega
    · rfl
  | succ m ih =>
    simp only [destroyN]
    rw [ih]
    by_cases hj : j = i
    · subst hj
      rw [if_neg (by omega), if_pos (by omega)]
      exact getD_set_none_self s j
    · rw [getD_set_ne _ _ _ _ (fun hh => hj hh.symm)]
      by_cases hin : i ≤ j ∧ j < i + (m + 1)
      · rw [if_pos hin, if_pos (by omega)]
      · rw [if_neg hin, if_neg (by omega)]

theorem uninitSeq_getD_of_ge (src dst : List (Option α)) (off j : Nat)
    (h : off + src.length ≤ j) :
    (uninitSeq src dst off).getD j none = dst.getD j none := by
  induction src generalizing dst off with
  | nil => rfl
  | cons x xs ih =>
    simp only [uninitSeq]
    rw [ih _ (off + 1) (by simp at h ⊢; omega)]
    exact getD_set_ne _ _ _ _ (by simp at h; omega)

theorem uninitSeq_eq_append (src dst : List (Option α)) (off : Nat)
    (h : off + src.length ≤ dst.length) :
    uninitSeq src dst off = dst.take off ++ src ++ dst.drop (off + src.length) := by
  induction src generalizing dst off with
  | nil => simp [uninitSeq, List.take_append_drop]
  | cons x xs ih =>
    simp only [uninitSeq]
    rw [ih (dst.set off x) (off + 1) (by simp at h ⊢; omega)]
    have hofflt : off < dst.length := by simp at h; omega
    have hset : dst.set off x = dst.take off ++ x :: dst.drop (off + 1) := by
      rw [List.set_eq_take_append_cons_drop, if_pos hofflt]
    have hlen : (dst.take off).length = off := by
      rw [List.length_take]; omega
    rw [hset]
    have htk : (dst.take off ++ x :: dst.drop (off + 1)).take (off + 1) =
        dst.take off ++ [x] := by
      rw [List.take_append_eq_append_take, hlen,
        List.take_of_length_le (by rw [hlen]; omega)]
      congr 1
      have h1 : off + 1 - off = 1 := by omega
      rw [h1]
      rfl
    have hdr : (dst.take off ++ x :: dst.drop (off + 1)).drop (off + 1 + xs.length) =
        dst.drop (off + (xs.length + 1)) := by
      rw [List.drop_append_eq_append_drop, hlen,
        List.drop_of_length_le (by rw [hlen]; omega)]
      simp only [List.nil_append]
      have h2 : off + 1 + xs.length - off = xs.length + 1 := by omega
      rw [h2, List.drop_succ_cons, List.drop_drop]
      congr 1
      omega
    rw [htk, hdr]
    simp

theorem allNone_of_getD (s : List (Option α)) (h : ∀ i, s.getD i none = none) :
    allNone s = true := by
  rw [allNone, List.all_eq_true]
  intro x hx
  obtain ⟨m, hm⟩ := List.getElem?_of_mem hx
  have := h m
  rw [List.getD_eq_getElem?_getD, hm] at this
  simp at this
  simp [this]

theorem allNone_replicate (n : Nat) :
    allNone (List.replicate n (none : Option α)) = true := by
  exact allNone_of_getD _ (getD_replicate_none n)

theorem live_of_repr (xs : List α) (rest : List (Option α)) :
    Vec.live ⟨xs.map some ++ rest, xs.length⟩ = xs := by
  unfold Vec.live
  rw [List.take_left' (by simp)]
  rw [List.filterMap_map]
  simp

theorem ucnGo_err_rollback (src : List Nat) (dst : List (Option Nat)) (off : Nat)
    (c : CopyCtr) (b : Nat) (d : List (Option Nat)) (c1 : CopyCtr)
    (he : ucnGo src dst off c = (.inr (b, d), c1))
    (hu : ∀ j, j < src.length → dst.getD (off + j) none = none) :
    destroyN d off b = dst := by
  induction src generalizing dst off c b with
  | nil => simp [ucnGo] at he
  | cons x xs ih =>
    rw [ucnGo] at he
    cases hc : copyOne c with
    | none =>
      rw [hc] at he
      simp only [Prod.mk.injEq, Sum.inr.injEq] at he
      obtain ⟨⟨hb, hd⟩, _⟩ := he
      subst hb; subst hd
      rfl
    | some cnext =>
      rw [hc] at he
      dsimp only at he
      rcases hrec : ucnGo xs (dst.set off (some x)) (off + 1) cnext with ⟨res, c2⟩
      rw [hrec] at he
      cases res with
      | inl dd => simp at he
      | inr bd =>
        obtain ⟨b2, d2⟩ := bd
        simp only [Prod.mk.injEq, Sum.inr.injEq] at he
        obtain ⟨⟨hb, hd⟩, hcc⟩ := he
        subst hb; subst hd; subst hcc
        have hrec2 := ih (dst.set off (some x)) (off + 1) cnext b2 hrec ?_
        · show destroyN d2 off (b2 + 1) = dst
          have hstep : destroyN d2 off (b2 + 1) =
              destroyN (d2.set off none) (off + 1) b2 := rfl
          rw [hstep, destroyN_set_comm _ _ _ _ _ (Nat.lt_succ_self off), hrec2,
            List.set_set]
          exact set_none_of_getD_none dst off
            (by have := hu 0 (by simp); simpa using this)
        · intro j hj
          rw [getD_set_ne _ _ _ _ (by omega)]
          have := hu (j + 1) (by simp; omega)
          have harith : off + (j + 1) = off + 1 + j := by omega
          rwa [harith] at this

theorem ucnGo_ok_eq (src : List Nat) (dst : List (Option Nat)) (off : Nat)
    (c : CopyCtr) (d : List (Option Nat)) (c1 : CopyCtr)
    (he : ucnGo src dst off c = (.inl d, c1)) :
    d = uninitSeq (src.map some) dst off := by
  induction src generalizing dst off c with
  | nil =>
    simp only [ucnGo, Prod.mk.injEq, Sum.inl.injEq] at he
    exact he.1.symm
  | cons x xs ih =>
    rw [ucnGo] at he
    cases hc : copyOne c with
    | none => rw [hc] at he; simp at he
    | some cnext =>
      rw [hc] at he
      dsimp only at he
      rcases hrec : ucnGo xs (dst.set off (some x)) (off + 1) cnext with ⟨res, c2⟩
      rw [hrec] at he
      cases res with
      | inl dd =>
        simp only [Prod.mk.injEq, Sum.inl.injEq] at he
        obtain ⟨hd, hcc⟩ := he
        subst hd; subst hcc
        exact ih (dst.set off (some x)) (off + 1) cnext hrec
      | inr bd => simp at he

/-! The claims. -/

/-- C1.  Copy assignment in the branch where the source size is at least the
    destination size and fits in the destination capacity.  Failing input: the
    destination holds the single element 10 with capacity 2, the source holds
    1, 2.  The code copy-assigns slot 0 from the source and then constructs the
    source tail at offset 0 of the destination buffer instead of at offset
    size, so the destination ends as slot values 2, uninitialized with size 2,
    not equal to the source as the claim demands. -/
theorem C1_copy_assign_eval :
    Vec.copyAssign (⟨[some 10, none], 1⟩ : Vec Nat) ⟨[some 1, some 2], 2⟩ =
      ⟨[some 2, none], 2⟩ ∧
    (Vec.copyAssign (⟨[some 10, none], 1⟩ : Vec Nat) ⟨[some 1, some 2], 2⟩).live ≠
      (⟨[some 1, some 2], 2⟩ : Vec Nat).live ∧
    (Vec.copyAssign (⟨[some 10, none], 1⟩ : Vec Nat) ⟨[some 1, some 2], 2⟩).slots.getD
      1 none = none := by
  decide

/-- C3 counterexample.  The claim that move construction performs no
    allocation fails: on a source of size 1 the member initializer
    data_(other.size_) allocates an arena of 1 slot, recorded in the
    allocation trace of the model. -/
theorem C3_move_ctor_allocates :
    (Vec.moveCtor (⟨[some 5], 1⟩ : Vec Nat)).2.2 = [1] ∧
    (Vec.moveCtor (⟨[some 5], 1⟩ : Vec Nat)).2.2 ≠ [] := by
  decide

/-- C3 amended.  Move construction steals the arena and the size of the
    source and leaves the source empty with size 0 and capacity 0; the final
    state never depends on a fallible step, but the constructor does first
    perform one redundant allocation of other.size slots (none when the source
    is empty), which the arena move assignment immediately releases. -/
theorem C3_move_ctor_amended (other : Vec Nat) :
    Vec.moveCtor other =
      (⟨other.slots, other.size⟩, ⟨[], 0⟩,
        if other.size = 0 then [] else [other.size]) := by
  rfl

/-- C4 counterexample.  Move assignment of a container onto itself, with one
    live element and capacity 1: the code frees the buffer inside the
    RawMemory move assignment and the exchanges then write the old values
    back, so size stays 1 and capacity stays 1 (the claim demands 0) and the
    held pointer now refers to a freed block. -/
theorem C4_self_move_cex :
    Vec.moveAssignSelf (⟨some [some 7], false, 1, 1⟩ : SelfMoveView Nat) =
      ⟨some [some 7], true, 1, 1⟩ ∧
    (Vec.moveAssignSelf (⟨some [some 7], false, 1, 1⟩ : SelfMoveView Nat)).size ≠ 0 := by
  decide

/-- C4 amended.  For every pair of distinct containers, after move
    construction and after move assignment the moved-from container has size 0
    and capacity 0, the state of a default-constructed container, hence it is
    safely destructible and reusable. -/
theorem C4_moved_from_empty (v rhs : Vec Nat) :
    ((Vec.moveCtor rhs).2.1.size = 0 ∧ (Vec.moveCtor rhs).2.1.Capacity = 0) ∧
    ((Vec.moveAssign v rhs).2.size = 0 ∧ (Vec.moveAssign v rhs).2.Capacity = 0) := by
  constructor <;> exact ⟨rfl, rfl⟩

/-- C5 counterexample.  A sequence consisting of one move assignment into the
    container, which the claim counts among the capacity-preserving
    operations, reduces the capacity: a container of capacity 1 move-assigned
    from an empty container ends with capacity 0. -/
theorem C5_capacity_cex :
    (Vec.applyOp (⟨[some 5], 1⟩ : Vec Nat) (Op.moveAssignFrom ⟨[], 0⟩)).Capacity <
      (⟨[some 5], 1⟩ : Vec Nat).Capacity := by
  decide

/-- C7.  The input exhibiting the defect: a vector holding 1, 2 with size 2
    and spare capacity 3, Emplace or Insert at position end, offset delta
    equal to size.  The spare-capacity branch is taken and it calls
    move_backward(begin() + 2, begin() + 1, begin() + 2), a range with first
    above last, which violates the precondition of move_backward and is
    undefined behavior, modelled as none. -/
theorem C7_insert_at_end_eval :
    Vec.Emplace (⟨[some 1, some 2, none], 2⟩ : Vec Nat) 2 9 = none ∧
    Vec.Insert (⟨[some 1, some 2, none], 2⟩ : Vec Nat) 2 9 = none := by
  decide

/-- C2.  Strong exception guarantee on the copy-based migration path: whenever
    a copy construction fails during Reserve or during the reallocating branch
    of Emplace, the error escapes with the original container untouched, slots
    and size and hence capacity exactly as before the call, and with every
    slot of the abandoned new arena uninitialized: all partially constructed
    elements in it were destroyed. -/
theorem C2_strong_guarantee (v : Vec Nat) (n delta x : Nat) (c : CopyCtr) :
    (∀ w d c2, ReserveF v n c = (Except.error (w, d), c2) →
      w = v ∧ allNone d = true) ∧
    (∀ w d c2, EmplaceF v delta x c = (Except.error (w, d), c2) →
      w = v ∧ allNone d = true) := by
  constructor
  · intro w d c2 he
    unfold ReserveF at he
    split at he
    · simp at he
    · rcases hu : uninitCopyF v.live (List.replicate n none) 0 c with ⟨o, d0, cu⟩
      rw [hu] at he
      cases o with
      | some dd => simp at he
      | none =>
        dsimp only at he
        simp only [Prod.mk.injEq, Except.error.injEq] at he
        obtain ⟨⟨hw, hd⟩, _⟩ := he
        refine ⟨hw.symm, ?_⟩
        unfold uninitCopyF at hu
        rcases hg : ucnGo v.live (List.replicate n none) 0 c with ⟨r, cg⟩
        rw [hg] at hu
        cases r with
        | inl dd => simp at hu
        | inr bd =>
          obtain ⟨b, dE⟩ := bd
          dsimp only at hu
          simp only [Prod.mk.injEq] at hu
          obtain ⟨_, hd0, _⟩ := hu
          have hroll : destroyN dE 0 b = List.replicate n none :=
            ucnGo_err_rollback v.live (List.replicate n none) 0 c b dE cg hg
              (fun j _ => by rw [Nat.zero_add]; exact getD_replicate_none n j)
          rw [← hd, ← hd0, hroll]
          exact allNone_replicate n
  · intro w d c2 he
    unfold EmplaceF at he
    rcases ht : TryInitCopyF v delta
        ((List.replicate (if v.size = 0 then 1 else v.size * 2) none).set delta
          (some x)) c with ⟨o, dT, cT⟩
    rw [ht] at he
    cases o with
    | some dd => simp at he
    | none =>
      dsimp only at he
      simp only [Prod.mk.injEq, Except.error.injEq] at he
      obtain ⟨⟨hw, hd⟩, _⟩ := he
      refine ⟨hw.symm, ?_⟩
      have hnd1 : ∀ j, j ≠ delta →
          ((List.replicate (if v.size = 0 then 1 else v.size * 2) none).set delta
            (some x)).getD j none = none := by
        intro j hj
        rw [getD_set_ne _ _ _ _ (fun hh => hj hh.symm)]
        exact getD_replicate_none _ j
      have hlenpre : (v.live.take delta).length ≤ delta := by
        rw [List.length_take]; omega
      unfold TryInitCopyF at ht
      rcases h1 : uninitCopyF (v.live.take delta)
          ((List.replicate (if v.size = 0 then 1 else v.size * 2) none).set delta
            (some x)) 0 c with ⟨o1, d1, cu1⟩
      rw [h1] at ht
      cases o1 with
      | none =>
        dsimp only at ht
        simp only [Prod.mk.injEq] at ht
        obtain ⟨_, hdT, _⟩ := ht
        unfold uninitCopyF at h1
        rcases hg1 : ucnGo (v.live.take delta)
            ((List.replicate (if v.size = 0 then 1 else v.size * 2) none).set delta
              (some x)) 0 c with ⟨r1, cg1⟩
        rw [hg1] at h1
        cases r1 with
        | inl dd => simp at h1
        | inr bd =>
          obtain ⟨b, dE⟩ := bd
          dsimp only at h1
          simp only [Prod.mk.injEq] at h1
          obtain ⟨_, hd1, _⟩ := h1
          have hroll : destroyN dE 0 b =
              (List.replicate (if v.size = 0 then 1 else v.size * 2) none).set delta
                (some x) :=
            ucnGo_err_rollback _ _ 0 c b dE cg1 hg1
              (fun j hj => by simpa using hnd1 j (by omega))
          have hfin : destroyN d1 delta 1 =
              (List.replicate (if v.size = 0 then 1 else v.size * 2) none).set delta
                none := by
            rw [← hd1, hroll]
            show ((((List.replicate (if v.size = 0 then 1 else v.size * 2) none).set
              delta (some x)).set delta none) : List (Option Nat)) = _
            rw [List.set_set]
          rw [← hd, ← hdT, hfin, set_none_of_getD_none _ _ (getD_replicate_none _ _)]
          exact allNone_replicate _
      | some d1x =>
        dsimp only at ht
        rcases h2 : uninitCopyF (v.live.drop delta) d1x (delta + 1) cu1 with ⟨o2, d2, cu2⟩
        rw [h2] at ht
        cases o2 with
        | some dd2 => simp at ht
        | none =>
          dsimp only at ht
          simp only [Prod.mk.injEq] at ht
          obtain ⟨_, hdT, _⟩ := ht
          have hd1eq : d1x = uninitSeq ((v.live.take delta).map some)
              ((List.replicate (if v.size = 0 then 1 else v.size * 2) none).set delta
                (some x)) 0 := by
            unfold uninitCopyF at h1
            rcases hg1 : ucnGo (v.live.take delta)
                ((List.replicate (if v.size = 0 then 1 else v.size * 2) none).set delta
                  (some x)) 0 c with ⟨r1, cg1⟩
            rw [hg1] at h1
            cases r1 with
            | inr bd =>
              obtain ⟨b, dE⟩ := bd
              dsimp only at h1
              simp at h1
            | inl dd =>
              dsimp only at h1
              simp only [Prod.mk.injEq, Option.some.injEq] at h1
              obtain ⟨hddx, _, _⟩ := h1
              rw [← hddx]
              exact ucnGo_ok_eq _ _ 0 c dd cg1 hg1
          have hd1high : ∀ j, delta + 1 ≤ j → d1x.getD j none = none := by
            intro j hj
            rw [hd1eq, uninitSeq_getD_of_ge _ _ _ _ (by simp; omega)]
            exact hnd1 j (by omega)
          have hd2eq : d2 = d1x := by
            unfold uninitCopyF at h2
            rcases hg2 : ucnGo (v.live.drop delta) d1x (delta + 1) cu1 with ⟨r2, cg2⟩
            rw [hg2] at h2
            cases r2 with
            | inl dd => simp at h2
            | inr bd =>
              obtain ⟨b, dE⟩ := bd
              dsimp only at h2
              simp only [Prod.mk.injEq] at h2
              obtain ⟨_, hdd, _⟩ := h2
              rw [← hdd]
              exact ucnGo_err_rollback _ _ (delta + 1) cu1 b dE cg2 hg2
                (fun j _ => hd1high (delta + 1 + j) (by omega))
          rw [← hd, ← hdT, hd2eq]
          refine allNone_of_getD _ (fun i => ?_)
          rw [destroyN_getD]
          split
          · rfl
          · rename_i hrange
            exact hd1high i (by omega)

/-- C2 witness: a concrete failing copy.  The vector holds 1, 2 at full
    capacity 2; the copy constructor fails on its second invocation.  Reserve
    to capacity 3 and Emplace at offset 1 each escape with the original vector
    intact and the abandoned arena fully destroyed. -/
theorem C2_strong_guarantee_w :
    ((⟨[some 1, some 2], 2⟩ : Vec Nat) = ⟨[some 1, some 2], 2⟩ ∧
      allNone ([none, none, none] : List (Option Nat)) = true) ∧
    ((⟨[some 1, some 2], 2⟩ : Vec Nat) = ⟨[some 1, some 2], 2⟩ ∧
      allNone ([none, none, none, none] : List (Option Nat)) = true) :=
  ⟨(C2_strong_guarantee ⟨[some 1, some 2], 2⟩ 3 1 9 ⟨0, 2⟩).1
      ⟨[some 1, some 2], 2⟩ [none, none, none] ⟨1, 2⟩ rfl,
   (C2_strong_guarantee ⟨[some 1, some 2], 2⟩ 3 1 9 ⟨0, 2⟩).2
      ⟨[some 1, some 2], 2⟩ [none, none, none, none] ⟨1, 2⟩ rfl⟩

/-! Capacity behavior of each operation, for the amended monotonicity claim. -/

theorem Emplace_capacity_le (v : Vec α) (i : Nat) (x : α) (w : Vec α) (j : Nat)
    (h : Vec.Emplace v i x = some (w, j)) : v.Capacity ≤ w.Capacity := by
  unfold Vec.Emplace at h
  split at h
  · rename_i hfull
    split at h
    · rename_i hile
      simp only [Option.some.injEq, Prod.mk.injEq] at h
      obtain ⟨hw, _⟩ := h
      rw [← hw]
      show v.Capacity ≤ (uninitSeq _ (uninitSeq _ _ _) _).length
      rw [length_uninitSeq, length_uninitSeq, List.length_set,
        List.length_replicate]
      rw [← hfull]
      split <;> omega
    · simp at h
  · split at h
    · rename_i hnotfull h0
      simp only [Option.some.injEq, Prod.mk.injEq] at h
      obtain ⟨hw, _⟩ := h
      rw [← hw]
      show v.slots.length ≤ (v.slots.set 0 (some x)).length
      rw [List.length_set]
    · cases hmb : moveBackward (v.slots.set v.size (v.slots.getD (v.size - 1) none))
          i (v.size - 1) v.size with
      | none => rw [hmb] at h; simp at h
      | some s2v =>
        rw [hmb] at h
        simp only [Option.some.injEq, Prod.mk.injEq] at h
        obtain ⟨hw, _⟩ := h
        rw [← hw]
        show v.slots.length ≤ (s2v.set i (some x)).length
        rw [List.length_set, moveBackward_length _ _ _ _ _ hmb, List.length_set]

theorem emplaceVec_capacity_le (v : Vec α) (i : Nat) (x : α) :
    v.Capacity ≤ (Vec.emplaceVec v i x).Capacity := by
  unfold Vec.emplaceVec
  cases he : Vec.Emplace v i x with
  | none => exact le_refl _
  | some pv => exact Emplace_capacity_le v i x pv.1 pv.2 (by rw [he])

theorem PushBack_capacity_le (v : Vec α) (x : α) :
    v.Capacity ≤ (Vec.PushBack v x).Capacity := by
  unfold Vec.PushBack
  split
  · exact emplaceVec_capacity_le v v.size x
  · show v.slots.length ≤ (v.slots.set v.size (some x)).length
    rw [List.length_set]

theorem copyAssign_capacity_le (v rhs : Vec α) :
    v.Capacity ≤ (Vec.copyAssign v rhs).Capacity := by
  unfold Vec.copyAssign
  split
  · rename_i hgt
    show v.Capacity ≤ (Vec.copyCtor rhs).Capacity
    unfold Vec.copyCtor
    show v.Capacity ≤ (uninitSeq _ _ _).length
    rw [length_uninitSeq, List.length_replicate]
    omega
  · split
    · show v.slots.length ≤ (destroyN (assignUpTo v.slots rhs.slots 0 rhs.size)
        rhs.size (v.size - rhs.size)).length
      rw [length_destroyN, length_assignUpTo]
    · show v.slots.length ≤
        (uninitSeq _ (assignUpTo v.slots rhs.slots 0 v.size) 0).length
      rw [length_uninitSeq, length_assignUpTo]

theorem Reserve_capacity_le (v : Vec α) (n : Nat) :
    v.Capacity ≤ (Vec.Reserve v n).Capacity := by
  unfold Vec.Reserve
  split
  · exact le_refl _
  · rename_i hgt
    show v.Capacity ≤ (uninitSeq _ _ _).length
    rw [length_uninitSeq, List.length_replicate]
    omega

theorem Resize_capacity_le [Inhabited α] (v : Vec α) (n : Nat) :
    v.Capacity ≤ (Vec.Resize v n).Capacity := by
  unfold Vec.Resize
  split
  · show v.slots.length ≤ (destroyN v.slots n (v.size - n)).length
    rw [length_destroyN]
  · split
    · show v.Capacity ≤
        (valueConstructN (Vec.Reserve v n).slots v.size (n - v.size)).length
      rw [length_valueConstructN]
      exact Reserve_capacity_le v n
    · exact le_refl _

theorem popBack_capacity_le (v : Vec α) :
    v.Capacity ≤ (Vec.popBack v).Capacity := by
  unfold Vec.popBack
  split
  · show v.slots.length ≤ (v.slots.set (v.size - 1) none).length
    rw [List.length_set]
  · exact le_refl _

theorem Erase_capacity_le (v : Vec α) (i : Nat) :
    v.Capacity ≤ (Vec.Erase v i).1.Capacity := by
  show v.slots.length ≤ ((eraseShiftGo v.slots (i + 1) (v.size - (i + 1))).set
    (v.size - 1) none).length
  rw [List.length_set, length_eraseShiftGo]

theorem EmplaceBack_capacity_of_some (v : Vec α) (x : α) (w : Vec α) (j : Nat)
    (h : Vec.EmplaceBack v x = some (w, j)) : v.Capacity ≤ w.Capacity := by
  unfold Vec.EmplaceBack at h
  split at h
  · exact Emplace_capacity_le v v.size x w j h
  · simp only [Option.some.injEq, Prod.mk.injEq] at h
    obtain ⟨hw, _⟩ := h
    rw [← hw]
    show v.slots.length ≤ (v.slots.set v.size (some x)).length
    rw [List.length_set]

theorem emplaceBackVec_capacity_le (v : Vec α) (x : α) :
    v.Capacity ≤ (Vec.emplaceBackVec v x).Capacity := by
  cases he : Vec.EmplaceBack v x with
  | none =>
    have hr : Vec.emplaceBackVec v x = v := by unfold Vec.emplaceBackVec; rw [he]
    rw [hr]
  | some pv =>
    have hr : Vec.emplaceBackVec v x = pv.1 := by unfold Vec.emplaceBackVec; rw [he]
    rw [hr]
    exact EmplaceBack_capacity_of_some v x pv.1 pv.2 (by rw [he])

theorem applyOp_capacity_le (v : Vec Nat) (op : Op Nat)
    (h : op.isMoveAssignFrom = false) :
    v.Capacity ≤ (Vec.applyOp v op).Capacity := by
  cases op with
  | copyAssignFrom rhs => exact copyAssign_capacity_le v rhs
  | moveAssignFrom rhs => simp [Op.isMoveAssignFrom] at h
  | reserveOp n => exact Reserve_capacity_le v n
  | resizeOp n => exact Resize_capacity_le v n
  | pushBackOp x => exact PushBack_capacity_le v x
  | popBackOp => exact popBack_capacity_le v
  | emplaceOp i x => exact emplaceVec_capacity_le v i x
  | insertOp i x => exact emplaceVec_capacity_le v i x
  | emplaceBackOp x => exact emplaceBackVec_capacity_le v x
  | eraseOp i => exact Erase_capacity_le v i

/-- C5 amended.  Capacity is monotonically non-decreasing across any sequence
    of operations that, besides containing no move-from of the container and
    no swap, also contains no move assignment into the container: the latter
    replaces the capacity by the capacity of the assigned-from container and
    can therefore reduce it. -/
theorem C5_capacity_mono_amended (v : Vec Nat) (ops : List (Op Nat))
    (h : ∀ op ∈ ops, op.isMoveAssignFrom = false) :
    v.Capacity ≤ (ops.foldl Vec.applyOp v).Capacity := by
  induction ops generalizing v with
  | nil => exact le_refl _
  | cons op rest ih =>
    rw [List.foldl_cons]
    exact le_trans (applyOp_capacity_le v op (h op (by simp)))
      (ih (Vec.applyOp v op) (fun o ho => h o (by simp [ho])))

/-- C5 amended witness: a concrete operation sequence, push then resize to 0
    then pop then erase, never reduces the capacity. -/
theorem C5_capacity_mono_amended_w :
    (⟨[], 0⟩ : Vec Nat).Capacity ≤
      (([Op.pushBackOp 1, Op.resizeOp 0, Op.popBackOp] : List (Op Nat)).foldl
        Vec.applyOp ⟨[], 0⟩).Capacity :=
  C5_capacity_mono_amended ⟨[], 0⟩ [Op.pushBackOp 1, Op.resizeOp 0, Op.popBackOp]
    (by decide)

/-! Growth of the capacity under repeated PushBack. -/

theorem PushBack_full (v : Vec Nat) (x : Nat) (h : v.size = v.Capacity) :
    (Vec.PushBack v x).size = v.size + 1 ∧
    (Vec.PushBack v x).Capacity = (if v.size = 0 then 1 else v.size * 2) := by
  unfold Vec.PushBack Vec.emplaceVec Vec.Emplace
  rw [if_pos h, if_pos h, if_pos (Nat.le_refl v.size)]
  dsimp only
  refine ⟨rfl, ?_⟩
  show (uninitSeq _ (uninitSeq _ _ _) _).length = _
  rw [length_uninitSeq, length_uninitSeq, List.length_set, List.length_replicate]

theorem PushBack_spare (v : Vec Nat) (x : Nat) (h : ¬(v.size = v.Capacity)) :
    Vec.PushBack v x = ⟨v.slots.set v.size (some x), v.size + 1⟩ := by
  unfold Vec.PushBack
  rw [if_neg h]

theorem pushSim_inv (f : Nat → Nat) (n : Nat) :
    (pushSim f n).1.size = n ∧
    (pushSim f n).2 = (List.range (pushSim f n).2.length).map (fun i => 2 ^ i) ∧
    ((pushSim f n).2.length = 0 → n = 0) ∧
    (n = 0 → (pushSim f n).1.Capacity = 0) ∧
    (0 < (pushSim f n).2.length →
      (pushSim f n).1.Capacity = 2 ^ ((pushSim f n).2.length - 1)) ∧
    n ≤ (pushSim f n).1.Capacity ∧
    (1 ≤ n → (pushSim f n).1.Capacity < 2 * n) := by
  induction n with
  | zero =>
    exact ⟨rfl, rfl, fun _ => rfl, fun _ => rfl,
      fun h => absurd h (by simp [pushSim]),
      Nat.le_refl 0, fun h => absurd h (by omega)⟩
  | succ n ih =>
    obtain ⟨hsz, hcaps, hlen0, hn0, hpos, hle, hlt⟩ := ih
    by_cases hfc : (pushSim f n).1.size = (pushSim f n).1.Capacity
    · obtain ⟨hpbs, hpbc⟩ := PushBack_full (pushSim f n).1 (f n) hfc
      have hcapn : (pushSim f n).1.Capacity = n := by rw [← hfc, hsz]
      have hne : ¬((Vec.PushBack (pushSim f n).1 (f n)).Capacity =
          (pushSim f n).1.Capacity) := by
        rw [hpbc, hcapn, hsz]
        by_cases h0 : n = 0
        · subst h0; simp
        · rw [if_neg h0]; omega
      have hstep : pushSim f (n + 1) =
          (Vec.PushBack (pushSim f n).1 (f n),
           (pushSim f n).2 ++ [(Vec.PushBack (pushSim f n).1 (f n)).Capacity]) := by
        simp only [pushSim]
        rw [if_neg hne]
      by_cases h0 : n = 0
      · have hcaps0 : (pushSim f n).2 = [] := by
          have hc0 : (pushSim f n).1.Capacity = 0 := hn0 h0
          rcases Nat.eq_zero_or_pos (pushSim f n).2.length with hl | hl
          · exact List.length_eq_zero.mp hl
          · have hcp := hpos hl
            rw [hc0] at hcp
            exact absurd hcp.symm (Nat.pos_iff_ne_zero.mp (Nat.pos_pow_of_pos _ (by omega)))
        have hnewcap : (Vec.PushBack (pushSim f n).1 (f n)).Capacity = 1 := by
          rw [hpbc, hsz, h0]
          simp
        rw [hstep]
        refine ⟨?_, ?_, ?_, ?_, ?_, ?_, ?_⟩
        · show (Vec.PushBack (pushSim f n).1 (f n)).size = n + 1
          rw [hpbs, hsz]
        · show (pushSim f n).2 ++ _ = _
          rw [hcaps0, hnewcap]
          rfl
        · intro habs
          rw [hcaps0, hnewcap] at habs
          simp at habs
        · intro habs; omega
        · intro _
          show (Vec.PushBack (pushSim f n).1 (f n)).Capacity = _
          rw [hcaps0, hnewcap]
          rfl
        · show n + 1 ≤ (Vec.PushBack (pushSim f n).1 (f n)).Capacity
          rw [hnewcap]; omega
        · intro _
          show (Vec.PushBack (pushSim f n).1 (f n)).Capacity < 2 * (n + 1)
          rw [hnewcap]; omega
      · have hlpos : 0 < (pushSim f n).2.length := by
          rcases Nat.eq_zero_or_pos (pushSim f n).2.length with hl | hl
          · exact absurd (hlen0 hl) h0
          · exact hl
        have hn2 : n = 2 ^ ((pushSim f n).2.length - 1) := by
          rw [← hpos hlpos]
          exact hcapn.symm
        have h2n : (Vec.PushBack (pushSim f n).1 (f n)).Capacity = n * 2 := by
          rw [hpbc, hsz, if_neg h0]
        have hpow : n * 2 = 2 ^ (pushSim f n).2.length := by
          conv_lhs => rw [hn2]
          rw [← Nat.pow_succ]
          congr 1
          omega
        rw [hstep]
        refine ⟨?_, ?_, ?_, ?_, ?_, ?_, ?_⟩
        · show (Vec.PushBack (pushSim f n).1 (f n)).size = n + 1
          rw [hpbs, hsz]
        · show (pushSim f n).2 ++ _ =
            (List.range ((pushSim f n).2 ++
              [(Vec.PushBack (pushSim f n).1 (f n)).Capacity]).length).map
              (fun i => 2 ^ i)
          rw [h2n, hpow]
          have hlen' : ((pushSim f n).2 ++ [2 ^ (pushSim f n).2.length]).length =
              (pushSim f n).2.length + 1 := by simp
          rw [hlen', List.range_succ, List.map_append, ← hcaps]
          simp
        · intro habs
          simp at habs
        · intro habs; omega
        · intro _
          show (Vec.PushBack (pushSim f n).1 (f n)).Capacity = _
          rw [h2n, hpow]
          congr 1
          simp
        · show n + 1 ≤ (Vec.PushBack (pushSim f n).1 (f n)).Capacity
          rw [h2n]; omega
        · intro _
          show (Vec.PushBack (pushSim f n).1 (f n)).Capacity < 2 * (n + 1)
          rw [h2n]; omega
    · have hpb := PushBack_spare (pushSim f n).1 (f n) hfc
      have hcapeq : (Vec.PushBack (pushSim f n).1 (f n)).Capacity =
          (pushSim f n).1.Capacity := by
        rw [hpb]
        show ((pushSim f n).1.slots.set (pushSim f n).1.size (some (f n))).length =
          (pushSim f n).1.slots.length
        rw [List.length_set]
      have hstep : pushSim f (n + 1) =
          (Vec.PushBack (pushSim f n).1 (f n), (pushSim f n).2) := by
        simp only [pushSim]
        rw [if_pos hcapeq]
      have hnlt : n < (pushSim f n).1.Capacity := by
        have hne2 : ¬(n = (pushSim f n).1.Capacity) := fun hh => hfc (hsz.trans hh)
        omega
      have hn1 : 1 ≤ n := by
        by_contra hc
        have h0 : n = 0 := by omega
        have := hn0 h0
        omega
      have hlpos : 0 < (pushSim f n).2.length := by
        rcases Nat.eq_zero_or_pos (pushSim f n).2.length with hl | hl
        · have := hlen0 hl; omega
        · exact hl
      rw [hstep]
      refine ⟨?_, ?_, ?_, ?_, ?_, ?_, ?_⟩
      · show (Vec.PushBack (pushSim f n).1 (f n)).size = n + 1
        rw [hpb]
        show (pushSim f n).1.size + 1 = n + 1
        rw [hsz]
      · exact hcaps
      · intro habs
        have := hlen0 habs
        omega
      · intro habs; omega
      · intro hl
        show (Vec.PushBack (pushSim f n).1 (f n)).Capacity = _
        rw [hcapeq]
        exact hpos hl
      · show n + 1 ≤ (Vec.PushBack (pushSim f n).1 (f n)).Capacity
        rw [hcapeq]; omega
      · intro _
        show (Vec.PushBack (pushSim f n).1 (f n)).Capacity < 2 * (n + 1)
        rw [hcapeq]
        have := hlt hn1
        omega

/-- C6.  Starting from the default-constructed vector, under repeated PushBack
    the list of capacities recorded at the growth events is exactly the list
    2 to the 0, 2 to the 1, 2 to the 2, and so on: its entry at zero-based
    position k - 1 is 2 to the k - 1, that is, the capacity after the k-th
    growth event is 2 to the k - 1 and the observed sequence is 1, 2, 4, 8. -/
theorem C6_growth_sequence (f : Nat → Nat) (n : Nat) :
    (pushSim f n).2 = (List.range (pushSim f n).2.length).map (fun i => 2 ^ i) :=
  (pushSim_inv f n).2.1

/-- C8.  PopBack destroys the last element and decrements size on a non-empty
    container: slot size minus 1 becomes uninitialized and size drops by one,
    so the live range is the old one without its last element while the
    capacity is unchanged; on an empty container PopBack changes nothing and
    signals no error. -/
theorem C8_popBack_contract (v : Vec Nat) (xs : List Nat) (k : Nat)
    (hs : v.slots = xs.map some ++ List.replicate k none) (hn : v.size = xs.length) :
    (v.size ≠ 0 →
      Vec.popBack v = ⟨xs.dropLast.map some ++ List.replicate (k + 1) none,
        xs.length - 1⟩) ∧
    (v.size = 0 → Vec.popBack v = v) := by
  constructor
  · intro hnz
    unfold Vec.popBack
    rw [if_pos hnz]
    rcases List.eq_nil_or_concat xs with hnil | ⟨ys, a, hconc⟩
    · rw [hnil] at hn
      simp at hn
      exact absurd hn hnz
    · subst hconc
      rw [List.concat_eq_append] at hs ⊢
      congr 1
      · rw [hs, hn, List.concat_eq_append, List.map_append]
        have hidx : (ys ++ [a]).length - 1 = ys.length := by simp
        rw [hidx]
        rw [List.append_assoc]
        rw [List.set_append, if_neg (by simp)]
        have hidx2 : ys.length - (ys.map some).length = 0 := by simp
        rw [hidx2, List.dropLast_concat]
        simp [List.replicate_succ]
      · rw [hn, List.concat_eq_append]
  · intro hz
    unfold Vec.popBack
    rw [if_neg (fun hcon => hcon hz)]

/-- C8 witness: popping from the one-element vector holding 3 empties it and
    keeps capacity 1; popping from the default-constructed vector is a no-op. -/
theorem C8_popBack_contract_w :
    Vec.popBack (⟨[some 3], 1⟩ : Vec Nat) = ⟨[none], 0⟩ ∧
    Vec.popBack (⟨[], 0⟩ : Vec Nat) = ⟨[], 0⟩ := by
  constructor
  · have h := (C8_popBack_contract ⟨[some 3], 1⟩ [3] 0 rfl rfl).1 (by decide)
    simpa using h
  · exact (C8_popBack_contract ⟨[], 0⟩ [] 0 rfl rfl).2 rfl

theorem eraseShiftGo_eq (m : Nat) (s : List (Option α)) (i : Nat)
    (hi : 1 ≤ i) (hm : i + m ≤ s.length) :
    eraseShiftGo s i m =
      s.take (i - 1) ++ (s.drop i).take m ++ s.drop (i + m - 1) := by
  induction m generalizing s i with
  | zero =>
    show s = _
    have h1 : i + 0 - 1 = i - 1 := by omega
    rw [h1]
    simp only [List.take_zero, List.append_nil]
    exact (List.take_append_drop (i - 1) s).symm
  | succ m ih =>
    have hilt : i < s.length := by omega
    show eraseShiftGo (s.set (i - 1) (s.getD i none)) (i + 1) m = _
    rw [ih (s.set (i - 1) (s.getD i none)) (i + 1) (by omega)
      (by rw [List.length_set]; omega)]
    have hgd : s.getD i none = s.get ⟨i, hilt⟩ := by
      rw [List.getD_eq_getElem _ _ hilt]
      rfl
    have hi1lt : i - 1 < s.length := by omega
    have hset : s.set (i - 1) (s.getD i none) =
        s.take (i - 1) ++ s.getD i none :: s.drop i := by
      rw [List.set_eq_take_append_cons_drop, if_pos hi1lt]
      have : i - 1 + 1 = i := by omega
      rw [this]
    have hlentk : (s.take (i - 1)).length = i - 1 := by
      rw [List.length_take]; omega
    have htk : (s.set (i - 1) (s.getD i none)).take (i + 1 - 1) =
        s.take (i - 1) ++ [s.getD i none] := by
      rw [hset]
      have h2 : i + 1 - 1 = i := by omega
      rw [h2, List.take_append_eq_append_take, hlentk,
        List.take_of_length_le (by omega)]
      congr 1
      have h3 : i - (i - 1) = 1 := by omega
      rw [h3]
      rfl
    have hd1 : (s.set (i - 1) (s.getD i none)).drop (i + 1) = s.drop (i + 1) := by
      rw [List.drop_set, if_pos (by omega)]
    have hd2 : (s.set (i - 1) (s.getD i none)).drop (i + 1 + m - 1) =
        s.drop (i + (m + 1) - 1) := by
      rw [List.drop_set, if_pos (by omega)]
      congr 1
      omega
    rw [htk, hd1, hd2]
    have hdropc : (s.drop i).take (m + 1) =
        s.getD i none :: (s.drop (i + 1)).take m := by
      rw [List.drop_eq_getElem_cons hilt]
      rw [List.getD_eq_getElem _ _ hilt]
      rfl
    rw [hdropc]
    simp [List.append_assoc]

/-- C9.  Erase at a valid position delta below size returns begin() + delta,
    decrements size by one, removes exactly the element at delta keeping the
    relative order, and afterwards the returned position holds the element
    that previously followed the erased one, or is end() when the last
    element was erased. -/
theorem C9_erase_contract (v : Vec Nat) (xs : List Nat) (k delta : Nat)
    (hs : v.slots = xs.map some ++ List.replicate k none) (hn : v.size = xs.length)
    (hd : delta < v.size) :
    (Vec.Erase v delta).2 = delta ∧
    (Vec.Erase v delta).1.size = v.size - 1 ∧
    (Vec.Erase v delta).1.live = xs.take delta ++ xs.drop (delta + 1) ∧
    (delta + 1 < v.size →
      ((Vec.Erase v delta).1.live)[delta]? = xs[delta + 1]?) ∧
    (delta + 1 = v.size → delta = (Vec.Erase v delta).1.size) := by
  have hlenslots : v.slots.length = xs.length + k := by rw [hs]; simp
  have hxlen : (xs.take delta ++ xs.drop (delta + 1)).length = v.size - 1 := by
    simp only [List.length_append, List.length_take, List.length_drop]
    omega
  have hA : v.slots.take delta = (xs.take delta).map some := by
    rw [hs, List.take_append_of_le_length (by simp; omega)]
    exact (List.map_take some xs delta).symm
  have hB : (v.slots.drop (delta + 1)).take (v.size - (delta + 1)) =
      (xs.drop (delta + 1)).map some := by
    rw [hs, List.drop_append_of_le_length (by simp; omega), ← List.map_drop]
    rw [List.take_append_of_le_length (by simp; omega)]
    rw [List.take_of_length_le (by simp; omega)]
  have hC : (v.slots.drop (v.size - 1)).set 0 none =
      List.replicate (k + 1) none := by
    rw [hs, List.drop_append_of_le_length (by simp; omega)]
    rcases hxd : xs.drop (v.size - 1) with _ | ⟨a, rest⟩
    · have : (xs.drop (v.size - 1)).length = xs.length - (v.size - 1) :=
        List.length_drop _ _
      rw [hxd] at this
      simp at this
      omega
    · have hlen1 : (xs.drop (v.size - 1)).length = 1 := by
        rw [List.length_drop]; omega
      rw [hxd] at hlen1
      simp at hlen1
      subst hlen1
      rw [← List.map_drop, hxd]
      simp [List.replicate_succ]
  have hslots : (eraseShiftGo v.slots (delta + 1) (v.size - (delta + 1))).set
      (v.size - 1) none =
      (xs.take delta ++ xs.drop (delta + 1)).map some ++
        List.replicate (k + 1) none := by
    rw [eraseShiftGo_eq _ _ _ (by omega) (by omega)]
    have e1 : delta + 1 - 1 = delta := by omega
    have e2 : delta + 1 + (v.size - (delta + 1)) - 1 = v.size - 1 := by omega
    rw [e1, e2]
    have hXY : (v.slots.take delta ++
        (v.slots.drop (delta + 1)).take (v.size - (delta + 1))).length =
        v.size - 1 := by
      rw [hA, hB]
      simp only [List.length_append, List.length_map, List.length_take,
        List.length_drop]
      omega
    rw [List.set_append, if_neg (by rw [hXY]; omega)]
    have e3 : v.size - 1 - (v.slots.take delta ++
        (v.slots.drop (delta + 1)).take (v.size - (delta + 1))).length = 0 := by
      rw [hXY]; omega
    rw [e3, hC, hA, hB, List.map_append]
  have hvec : (Vec.Erase v delta).1 =
      ⟨(xs.take delta ++ xs.drop (delta + 1)).map some ++
        List.replicate (k + 1) none, v.size - 1⟩ := by
    show (⟨(eraseShiftGo v.slots (delta + 1) (v.size - (delta + 1))).set
      (v.size - 1) none, v.size - 1⟩ : Vec Nat) = _
    rw [hslots]
  have hlive : (Vec.Erase v delta).1.live = xs.take delta ++ xs.drop (delta + 1) := by
    rw [hvec, ← hxlen]
    exact live_of_repr _ _
  refine ⟨rfl, rfl, hlive, ?_, ?_⟩
  · intro hlt
    rw [hlive]
    rw [List.getElem?_append_right (by rw [List.length_take]; omega)]
    have e4 : delta - (xs.take delta).length = 0 := by
      rw [List.length_take]; omega
    rw [e4, List.getElem?_drop]
  · intro heq
    show delta = v.size - 1
    omega

/-- C9 witness: erasing position 1 of the vector holding 1, 2, 3 returns
    position 1, shrinks the size to 2, leaves the live elements 1, 3, and the
    returned position now holds 3, the element that followed the erased 2. -/
theorem C9_erase_contract_w :
    (Vec.Erase (⟨[some 1, some 2, some 3], 3⟩ : Vec Nat) 1).2 = 1 ∧
    (Vec.Erase (⟨[some 1, some 2, some 3], 3⟩ : Vec Nat) 1).1.size = 2 ∧
    (Vec.Erase (⟨[some 1, some 2, some 3], 3⟩ : Vec Nat) 1).1.live = [1, 3] ∧
    ((Vec.Erase (⟨[some 1, some 2, some 3], 3⟩ : Vec Nat) 1).1.live)[1]? =
      some 3 := by
  have h := C9_erase_contract ⟨[some 1, some 2, some 3], 3⟩ [1, 2, 3] 0 1 rfl rfl
    (by decide)
  exact ⟨h.1, h.2.1, h.2.2.1, h.2.2.2.1 (by decide)⟩

/-- C10.  EmplaceBack always succeeds, appends the new element, and the
    returned position is that of the newly appended element: the index
    Size() - 1 after the call, whose slot holds the constructed value. -/
theorem C10_emplaceBack_contract (v : Vec Nat) (xs : List Nat) (k x : Nat)
    (hs : v.slots = xs.map some ++ List.replicate k none) (hn : v.size = xs.length) :
    match Vec.EmplaceBack v x with
    | some (w, i) => i = w.size - 1 ∧ w.size = v.size + 1 ∧
        w.live = xs ++ [x] ∧ w.live[i]? = some x
    | none => False := by
  by_cases hfull : v.size = v.Capacity
  · have hszN : v.size < (if v.size = 0 then 1 else v.size * 2) := by
      split <;> omega
    have hxsN : xs.length ≤ (if v.size = 0 then 1 else v.size * 2) := by
      rw [← hn]; exact Nat.le_of_lt hszN
    have htk : v.slots.take v.size = xs.map some := by
      rw [hs, hn]
      exact List.take_left' (by simp)
    have hnd1 : ((List.replicate (if v.size = 0 then 1 else v.size * 2) none).set
        v.size (some x)) =
        List.replicate v.size none ++ some x ::
          List.replicate ((if v.size = 0 then 1 else v.size * 2) - (v.size + 1))
            none := by
      rw [List.set_eq_take_append_cons_drop,
        if_pos (by rw [List.length_replicate]; omega)]
      rw [List.take_replicate, List.drop_replicate,
        Nat.min_eq_left (Nat.le_of_lt hszN)]
    have hslots : uninitSeq ((v.slots.take v.size).drop v.size)
        (uninitSeq ((v.slots.take v.size).take v.size)
          ((List.replicate (if v.size = 0 then 1 else v.size * 2) none).set v.size
            (some x)) 0)
        (v.size + 1) =
        (xs ++ [x]).map some ++
          List.replicate ((if v.size = 0 then 1 else v.size * 2) - (v.size + 1))
            none := by
      rw [htk, List.drop_of_length_le (by simp [hn]),
        List.take_of_length_le (by simp [hn])]
      show uninitSeq (xs.map some) _ 0 = _
      rw [uninitSeq_eq_append _ _ _
        (by rw [List.length_set, List.length_replicate]; simp; omega)]
      rw [List.take_zero, List.nil_append, hnd1]
      rw [List.drop_append_eq_append_drop]
      rw [List.drop_of_length_le (by rw [List.length_replicate]; simp [hn])]
      have e5 : 0 + (xs.map some).length - (List.replicate v.size
          (none : Option Nat)).length = 0 := by
        rw [List.length_replicate]; simp [hn]
      rw [e5]
      simp [List.map_append]
    have hEB : Vec.EmplaceBack v x =
        some (⟨(xs ++ [x]).map some ++
          List.replicate ((if v.size = 0 then 1 else v.size * 2) - (v.size + 1))
            none, v.size + 1⟩, v.size) := by
      unfold Vec.EmplaceBack Vec.Emplace
      rw [if_pos hfull, if_pos hfull, if_pos (Nat.le_refl v.size), hslots]
    rw [hEB]
    have hlive : Vec.live ⟨(xs ++ [x]).map some ++
        List.replicate ((if v.size = 0 then 1 else v.size * 2) - (v.size + 1))
          none, v.size + 1⟩ = xs ++ [x] := by
      have hszeq : v.size + 1 = (xs ++ [x]).length := by simp [hn]
      rw [hszeq]
      exact live_of_repr _ _
    refine ⟨by simp, rfl, hlive, ?_⟩
    rw [hlive, hn]
    exact List.getElem?_concat_length xs x
  · have hk1 : 1 ≤ k := by
      have : v.Capacity = xs.length + k := by
        show v.slots.length = xs.length + k
        rw [hs]; simp
      by_contra hc
      have hk0 : k = 0 := by omega
      rw [hk0] at this
      exact hfull (by omega)
    have hset : v.slots.set v.size (some x) =
        (xs ++ [x]).map some ++ List.replicate (k - 1) none := by
      rw [hs, hn, List.set_append, if_neg (by simp)]
      have e6 : xs.length - (xs.map some).length = 0 := by simp
      rw [e6]
      have hrep : List.replicate k (none : Option Nat) =
          none :: List.replicate (k - 1) none := by
        have hk : k = (k - 1) + 1 := by omega
        conv_lhs => rw [hk, List.replicate_succ]
      rw [hrep]
      simp [List.map_append]
    have hEB : Vec.EmplaceBack v x =
        some (⟨(xs ++ [x]).map some ++ List.replicate (k - 1) none,
          v.size + 1⟩, v.size) := by
      unfold Vec.EmplaceBack
      rw [if_neg hfull, hset]
    rw [hEB]
    have hlive : Vec.live ⟨(xs ++ [x]).map some ++ List.replicate (k - 1) none,
        v.size + 1⟩ = xs ++ [x] := by
      have hszeq : v.size + 1 = (xs ++ [x]).length := by simp [hn]
      rw [hszeq]
      exact live_of_repr _ _
    refine ⟨by simp, rfl, hlive, ?_⟩
    rw [hlive, hn]
    exact List.getElem?_concat_length xs x

/-- C10 witness: appending 7 to the vector holding 1 with spare capacity 2
    returns position 1, the new element 7 at index Size() - 1; and appending 7
    to the full one-element vector holding 1 reallocates and also returns the
    position of the new last element. -/
theorem C10_emplaceBack_contract_w :
    (match Vec.EmplaceBack (⟨[some 1, none], 1⟩ : Vec Nat) 7 with
    | some (w, i) => i = w.size - 1 ∧ w.size = 2 ∧
        w.live = [1, 7] ∧ w.live[i]? = some 7
    | none => False) ∧
    (match Vec.EmplaceBack (⟨[some 1], 1⟩ : Vec Nat) 7 with
    | some (w, i) => i = w.size - 1 ∧ w.size = 2 ∧
        w.live = [1, 7] ∧ w.live[i]? = some 7
    | none => False) :=
  ⟨C10_emplaceBack_contract ⟨[some 1, none], 1⟩ [1] 1 7 rfl rfl,
   C10_emplaceBack_contract ⟨[some 1], 1⟩ [1] 0 7 rfl rfl⟩
